import Mathlib

/-!
Shallow embedding of the PDF key-value extractor
(`src/pdf_extractor/extractor.py`, class `PDFExtractor`).

Modelling conventions:
* Page coordinates and font sizes are exact rationals (`ℚ`); the Python
  floats are modelled exactly, the literal `0.6` becomes `3/5`.
* A span dictionary becomes the structure `Span`; the optional
  `label_for` entry (read back with `label.get("label_for", "")`)
  becomes the field `labelFor : String` with `""` meaning absent.
* `INPUT_MAPPING` (a Python dict, insertion ordered) becomes an
  association list `AliasTable`; the result dict `extracted_data`
  becomes an association list `List (String × Option String)` with
  Python-dict assignment semantics (`dictInsert`).
* `re.split(r"(\.\x7b3,\x7d|_\x7b3,\x7d)", text)` followed by dropping empty
  parts is modelled by `rawTokens`/`coalesce`: the text is cut into
  maximal homogeneous runs of one filler character and maximal
  filler-free stretches; a run of three or more equal filler
  characters is a separator, everything else is merged back into
  maximal non-separator parts, which is exactly what the regex split
  produces.
* The Euclidean distance `dist = sqrt(dx^2 + dy^2)` of `_distance` is
  represented operationally by its square `distSq` (selection by the
  square agrees with selection by the root since `Real.sqrt` is
  monotone on nonnegative arguments); the claim about minimality is
  stated with the genuine Euclidean distance `euclidDist`.
-/

namespace PdfExtractor

/-- Axis-aligned bounding box `(x0, y0, x1, y1)` in page coordinates. -/
structure Bbox where
  x0 : ℚ
  y0 : ℚ
  x1 : ℚ
  y1 : ℚ
deriving DecidableEq

/-- A text span as collected by `_collect_spans`: the dict keys
`text`, `font`, `size`, `bbox`, `page`, plus the optional `label_for`
tag (`""` = absent, matching `label.get("label_for", "")`). -/
structure Span where
  text : String
  font : String
  size : ℚ
  bbox : Bbox
  page : ℕ
  labelFor : String := ""
deriving DecidableEq

/-- The configured mapping from field key to alias list
(`INPUT_MAPPING` and its working copy `mapping_copy`), as an
insertion-ordered association list, like a Python dict. -/
abbrev AliasTable := List (String × List String)

/-- Instance state of `PDFExtractor` relevant to extraction. -/
structure ExtractorState where
  extractedData : List (String × Option String)
  mappingCopy : AliasTable
  labels : List Span
  labelFonts : List String
  restSpans : List Span
deriving DecidableEq

/-- `__init__`: `extracted_data = \x7bkey: None for key in INPUT_MAPPING\x7d`,
`mapping_copy = \x7bk: v[:] for k, v in INPUT_MAPPING.items()\x7d`, and the
three empty working lists. -/
def initState (mapping : AliasTable) : ExtractorState :=
  { extractedData := mapping.map fun kv => (kv.1, none)
    mappingCopy := mapping
    labels := []
    labelFonts := []
    restSpans := [] }

/-! ### Span segmentation (`_split_span`) -/

/-- A filler character: `.` or `_`. -/
def isFillerChar (c : Char) : Bool := c == '.' || c == '_'

/-- One raw run of the scanner: the run's characters together with the
separator flag (`true` iff the run is three or more equal filler
characters, i.e. matches the regex alternative at that position). -/
def runToken (first : Char) (others : List Char) : List Char × Bool :=
  (first :: others, isFillerChar first && 3 ≤ (first :: others).length)

/-- Whether character `d` continues a run started by `first`: a filler
run extends only by the same character, a non-filler run extends by any
non-filler character. -/
def continuesRun (first d : Char) : Bool :=
  if isFillerChar first then first == d else !(isFillerChar d)

/-- Character-by-character scanner producing the maximal runs of the
text: a run started by a filler character extends while the next
character is the same character; a run started by a non-filler
character extends while the next character is not a filler character. -/
def scanAux (first : Char) (others : List Char) : List Char → List (List Char × Bool)
  | [] => [runToken first others]
  | d :: rest =>
    if continuesRun first d then scanAux first (others ++ [d]) rest
    else runToken first others :: scanAux d [] rest

/-- All raw runs of a character list. -/
def rawTokens : List Char → List (List Char × Bool)
  | [] => []
  | c :: cs => scanAux c [] cs

/-- Merge adjacent non-separator runs: the result has exactly the
non-empty parts of the regex split, each tagged with whether it is a
separator (`re.fullmatch` of the filler pattern). -/
def coalesce : List (List Char × Bool) → List (List Char × Bool)
  | [] => []
  | (p, true) :: rest => (p, true) :: coalesce rest
  | (p, false) :: rest =>
    match coalesce rest with
    | (q, false) :: more => (p ++ q, false) :: more
    | other => (p, false) :: other

/-- The tagged `clean_parts` of `_split_span` for a given text. -/
def splitParts (text : String) : List (List Char × Bool) :=
  coalesce (rawTokens text.toList)

/-- `char_length`: 1 unit for `.`, space, `i`, `j`; 2 units otherwise. -/
def char_length (c : Char) : ℕ :=
  if c = '.' ∨ c = ' ' ∨ c = 'i' ∨ c = 'j' then 1 else 2

/-- Summed unit weight of one part. -/
def partUnits (p : List Char) : ℕ := (p.map char_length).sum

/-- `total_units`: summed unit weight over all clean parts. -/
def totalUnitsOf (text : String) : ℕ :=
  ((splitParts text).map fun pt => partUnits pt.1).sum

/-- `unit = total_width / total_units if total_units else 0`. -/
def unitOf (s : Span) : ℚ :=
  if totalUnitsOf s.text = 0 then 0
  else (s.bbox.x1 - s.bbox.x0) / (totalUnitsOf s.text : ℚ)

/-- The cursor loop of `_split_span`: walk the parts left to right,
advancing the cursor by every part's width and emitting a sub-span for
every non-separator part. -/
def splitGo (font : String) (size : ℚ) (y0 y1 : ℚ) (page : ℕ) (unit : ℚ) :
    List (List Char × Bool) → ℚ → List Span
  | [], _ => []
  | (p, isSep) :: rest, cursor =>
    let width : ℚ := (partUnits p : ℚ) * unit
    let tail := splitGo font size y0 y1 page unit rest (cursor + width)
    if isSep then tail
    else
      { text := String.mk p, font := font, size := size,
        bbox := ⟨cursor, y0, cursor + width, y1⟩, page := page } :: tail

/-- `_split_span`: split one span on filler runs of length ≥ 3,
apportioning the bounding-box width by unit weight. -/
def splitSpan (s : Span) : List Span :=
  splitGo s.font s.size s.bbox.y0 s.bbox.y1 s.page (unitOf s) (splitParts s.text) s.bbox.x0

/-- `_collect_spans` over provider data already reduced to text blocks:
drop empty-text spans, segment each span, keep non-empty blocks. -/
def collectSpans (rawBlocks : List (List Span)) : List (List Span) :=
  (rawBlocks.map fun block =>
    (block.filter fun s => s.text ≠ "").flatMap splitSpan).filter fun bs => bs ≠ []

/-! ### Label detection (`_find_labels`) -/

/-- Python `str.lower` on an alias (ASCII-faithful). -/
def aliasLower (a : String) : List Char := a.toList.map Char.toLower

/-- Normalisation of a span text for matching:
`"".join(ch for ch in text.lower() if ch.isalnum())`. -/
def normText (t : String) : List Char :=
  (t.toList.map Char.toLower).filter Char.isAlphanum

/-- Scan the still-active mapping in order and return the first field
key one of whose aliases matches the normalised span text. -/
def findAlias (norm : List Char) : AliasTable → Option String
  | [] => none
  | (k, aliases) :: rest =>
    if aliases.any fun a => aliasLower a == norm then some k
    else findAlias norm rest

/-- Processing of one sub-span inside `_find_labels`: on a match, tag
the span, append it to `labels` and its font to `label_fonts`, and pop
the matched key from the working mapping; report whether a match
happened. -/
def stepSpan (st : ExtractorState) (sub : Span) : ExtractorState × Bool :=
  match findAlias (normText sub.text) st.mappingCopy with
  | none => (st, false)
  | some key =>
    ({ st with
        labels := st.labels ++ [{ sub with labelFor := key }]
        labelFonts := st.labelFonts ++ [sub.font]
        mappingCopy := st.mappingCopy.filter fun kv => kv.1 ≠ key }, true)

/-- The inner span loop of `_find_labels`, threading `block_has_label`. -/
def processSpans (st : ExtractorState) (hasLabel : Bool) : List Span → ExtractorState × Bool
  | [] => (st, hasLabel)
  | sub :: rest =>
    let r := stepSpan st sub
    processSpans r.1 (hasLabel || r.2) rest

/-- One block of `_find_labels`: if no span of the block matched a
label, every span of the block joins `rest_spans`. -/
def processBlock (st : ExtractorState) (blockSpans : List Span) : ExtractorState :=
  let r := processSpans st false blockSpans
  if r.2 then r.1 else { r.1 with restSpans := r.1.restSpans ++ blockSpans }

/-- `_find_labels` over all blocks. -/
def findLabels (st : ExtractorState) (allSpans : List (List Span)) : ExtractorState :=
  allSpans.foldl processBlock st

/-! ### Value resolution (`_find_nearest_value`, `_distance`) -/

/-- Squared Euclidean distance between the left-edge vertical midpoints
of the two spans; `_distance` returns its square root, and comparison
of the roots agrees with comparison of the squares. -/
def distSq (label s : Span) : ℚ :=
  (label.bbox.x0 - s.bbox.x0) ^ 2 +
    ((label.bbox.y0 + label.bbox.y1) / 2 - (s.bbox.y0 + s.bbox.y1) / 2) ^ 2

/-- The genuine Euclidean distance of `_distance` (specification side). -/
noncomputable def euclidDist (label s : Span) : ℝ :=
  Real.sqrt ((distSq label s : ℚ) : ℝ)

/-- The candidate filter of `_find_nearest_value`: different font, same
page, and vertical bbox centre within `label_center_y ± 0.6 × label_height`. -/
def qualifies (label s : Span) : Bool :=
  s.font ≠ label.font && s.page == label.page &&
    decide ((label.bbox.y0 + label.bbox.y1) / 2 - 3 / 5 * (label.bbox.y1 - label.bbox.y0)
        ≤ (s.bbox.y0 + s.bbox.y1) / 2) &&
    decide ((s.bbox.y0 + s.bbox.y1) / 2
        ≤ (label.bbox.y0 + label.bbox.y1) / 2 + 3 / 5 * (label.bbox.y1 - label.bbox.y0))

/-- The filtered candidate list. -/
def candidatesFor (label : Span) (rest : List Span) : List Span :=
  rest.filter (qualifies label)

/-- Keep the earlier element unless the later one is strictly closer. -/
def minKeep (f : Span → ℚ) (a : Span) : Option Span → Span
  | none => a
  | some b => if f a ≤ f b then a else b

/-- First element attaining the minimal score: the head of the stable
sort by score used in the code (`sorted(..., key=...)[0]`, Python sort
being stable). -/
def firstMinBy (f : Span → ℚ) : List Span → Option Span
  | [] => none
  | a :: rest => some (minKeep f a (firstMinBy f rest))

/-- Python dict assignment `d[k] = v`: update in place when the key is
present, append otherwise. -/
def dictInsert (d : List (String × Option String)) (k : String) (v : Option String) :
    List (String × Option String) :=
  if d.any fun kv => kv.1 == k then
    d.map fun kv => if kv.1 == k then (kv.1, v) else kv
  else d ++ [(k, v)]

/-- Lookup in the result dict. -/
def dictGet (d : List (String × Option String)) (k : String) : Option (Option String) :=
  (d.find? fun kv => kv.1 == k).map fun kv => kv.2

/-- `_find_nearest_value`: filter candidates, pick the nearest (first
minimum of the stable sort by distance), and write its text under the
label's key when a candidate exists and the key is non-empty. -/
def findNearestValue (st : ExtractorState) (label : Span) : ExtractorState :=
  match firstMinBy (distSq label) (candidatesFor label st.restSpans) with
  | none => st
  | some nearest =>
    if label.labelFor ≠ "" then
      { st with extractedData := dictInsert st.extractedData label.labelFor nearest.text }
    else st

/-! ### The extraction pipeline (`extract`) -/

/-- The body of `extract` run from a given instance state: collect
spans, find labels, then resolve a value for each label in order. -/
def runFrom (st : ExtractorState) (rawBlocks : List (List Span)) :
    List (String × Option String) :=
  let st1 := findLabels st (collectSpans rawBlocks)
  (st1.labels.foldl findNearestValue st1).extractedData

/-- One full extraction run: fresh instance state, then the pipeline. -/
def runExtract (mapping : AliasTable) (rawBlocks : List (List Span)) :
    List (String × Option String) :=
  runFrom (initState mapping) rawBlocks

/-- `extract` including its catch-all handler: when the span provider
fails, the run returns `\x7bkey: None for key in INPUT_MAPPING\x7d`. -/
def extractSafe (mapping : AliasTable) (input : Except Unit (List (List Span))) :
    List (String × Option String) :=
  match input with
  | Except.error _ => mapping.map fun kv => (kv.1, none)
  | Except.ok rawBlocks => runExtract mapping rawBlocks

/-! ### Specification-side definitions -/

/-- Whether a character list contains three or more consecutive equal
filler characters (a filler run in the sense of the regex). -/
def hasRunOf3 : List Char → Bool
  | a :: b :: c :: rest =>
    (a == b && b == c && isFillerChar a) || hasRunOf3 (b :: c :: rest)
  | _ => false

/-- Whether processing one block from a given state matches a label
(`block_has_label` after the span loop). -/
def blockFlag (st : ExtractorState) (block : List Span) : Bool :=
  (processSpans st false block).2

/-- The blocks that match no label, in processing order, with the
detector state threaded block by block exactly as in `_find_labels`. -/
def unmatchedBlocks (st : ExtractorState) : List (List Span) → List (List Span)
  | [] => []
  | b :: bs =>
    let rest := unmatchedBlocks (processBlock st b) bs
    if blockFlag st b then rest else b :: rest

/-- The x-interval consumed by each part of a segmented span, scanning
left to right from the cursor start; the flag marks filler parts. -/
def partIntervals (cursor unit : ℚ) : List (List Char × Bool) → List (ℚ × ℚ × Bool)
  | [] => []
  | (p, isSep) :: rest =>
    (cursor, cursor + (partUnits p : ℚ) * unit, isSep) ::
      partIntervals (cursor + (partUnits p : ℚ) * unit) unit rest

/-- Specification of the Value Resolver on one label: the candidate
filter is exactly same-page, different-font and the vertical band; an
empty candidate pool leaves the state unchanged; otherwise a nearest
candidate exists, it is assigned under the label's key, its Euclidean
distance is minimal, and it is the first candidate attaining the
minimum (tie-break by encounter order in the pool). -/
def resolverSpec (label : Span) (st : ExtractorState) : Prop :=
  (∀ s : Span, s ∈ candidatesFor label st.restSpans ↔
      s ∈ st.restSpans ∧ s.page = label.page ∧ s.font ≠ label.font ∧
      (label.bbox.y0 + label.bbox.y1) / 2 - 3 / 5 * (label.bbox.y1 - label.bbox.y0)
          ≤ (s.bbox.y0 + s.bbox.y1) / 2 ∧
      (s.bbox.y0 + s.bbox.y1) / 2
          ≤ (label.bbox.y0 + label.bbox.y1) / 2 + 3 / 5 * (label.bbox.y1 - label.bbox.y0)) ∧
  (candidatesFor label st.restSpans = [] → findNearestValue st label = st) ∧
  (candidatesFor label st.restSpans ≠ [] →
      (firstMinBy (distSq label) (candidatesFor label st.restSpans)).isSome = true) ∧
  (∀ c : Span, firstMinBy (distSq label) (candidatesFor label st.restSpans) = some c →
    findNearestValue st label =
      { st with extractedData := dictInsert st.extractedData label.labelFor c.text } ∧
    dictGet (findNearestValue st label).extractedData label.labelFor = some (some c.text) ∧
    c ∈ candidatesFor label st.restSpans ∧
    (∀ b ∈ candidatesFor label st.restSpans, euclidDist label c ≤ euclidDist label b) ∧
    ∃ i : ℕ, ∃ hi : i < (candidatesFor label st.restSpans).length,
      (candidatesFor label st.restSpans).get ⟨i, hi⟩ = c ∧
      ∀ j : ℕ, ∀ hj : j < (candidatesFor label st.restSpans).length, j < i →
        euclidDist label c < euclidDist label ((candidatesFor label st.restSpans).get ⟨j, hj⟩))

/-- Specification of the tiling behaviour of the Span Segmenter: every
emitted sub-box has width equal to its unit weight times the per-unit
width, the widths of all parts (filler included) sum to the original
width, the emitted sub-boxes are exactly the non-filler intervals of
the advancing cursor, consecutive intervals abut, and the intervals
start at `x0` and end at `x1`. -/
def tilingSpec (s : Span) : Prop :=
  (∀ sub ∈ splitSpan s,
      sub.bbox.x1 - sub.bbox.x0 = (partUnits sub.text.toList : ℚ) * unitOf s) ∧
  (((splitParts s.text).map fun pt => (partUnits pt.1 : ℚ) * unitOf s).sum
      = s.bbox.x1 - s.bbox.x0) ∧
  ((splitSpan s).map fun sub => (sub.bbox.x0, sub.bbox.x1))
      = (partIntervals s.bbox.x0 (unitOf s) (splitParts s.text)).filterMap
          (fun t => if t.2.2 then none else some (t.1, t.2.1)) ∧
  List.Chain' (fun a b => b.1 = a.2.1)
      (partIntervals s.bbox.x0 (unitOf s) (splitParts s.text)) ∧
  (∀ t, (partIntervals s.bbox.x0 (unitOf s) (splitParts s.text)).head? = some t →
      t.1 = s.bbox.x0) ∧
  (∀ t, (partIntervals s.bbox.x0 (unitOf s) (splitParts s.text)).getLast? = some t →
      t.2.1 = s.bbox.x1)

/-- Detector invariant: the keys of the labels found so far are
pairwise distinct and disjoint from the keys still in the working
mapping. -/
def detectorInv (st : ExtractorState) : Prop :=
  (st.labels.map Span.labelFor).Nodup ∧
    ∀ l ∈ st.labels, ∀ kv ∈ st.mappingCopy, kv.1 ≠ l.labelFor

/-- Key-tracking invariant: every key still in the working mapping and
every found label's key belongs to the configured key set `K`. -/
def keyInv (K : List String) (st : ExtractorState) : Prop :=
  (∀ kv ∈ st.mappingCopy, kv.1 ∈ K) ∧ ∀ l ∈ st.labels, l.labelFor ∈ K

/-! ### Concrete inputs for witnesses and counterexamples -/

/-- A concrete label span (field key `customer_name`). -/
def wLabel : Span :=
  { text := "name", font := "A", size := 10, bbox := ⟨0, 0, 10, 10⟩,
    page := 1, labelFor := "customer_name" }

/-- A concrete value candidate on the same page with a different font. -/
def wValue : Span :=
  { text := "John Doe", font := "B", size := 10, bbox := ⟨15, 1, 40, 9⟩, page := 1 }

/-- A concrete resolver state holding one rest span. -/
def wState : ExtractorState :=
  { extractedData := [("customer_name", none)]
    mappingCopy := []
    labels := [wLabel]
    labelFonts := ["A"]
    restSpans := [wValue] }

/-- A concrete span with a filler run. -/
def wFiller : Span :=
  { text := "Name....John", font := "f", size := 10, bbox := ⟨0, 0, 100, 10⟩, page := 1 }

/-- A concrete span without filler runs. -/
def wPlain : Span :=
  { text := "John", font := "f", size := 10, bbox := ⟨3, 0, 17, 10⟩, page := 1 }

/-- A concrete degenerate span: zero-width box, non-zero weighted text. -/
def wDegenerate : Span :=
  { text := "ab", font := "f", size := 10, bbox := ⟨5, 0, 5, 10⟩, page := 1 }

/-- A concrete alias table. -/
def wMapping : AliasTable := [("customer_name", ["name"])]

/-- A concrete two-block document. -/
def wBlocks : List (List Span) :=
  [[{ text := "name", font := "A", size := 10, bbox := ⟨0, 0, 10, 10⟩, page := 1 }],
   [wValue]]

/-- A concrete sub-span emitted for `wPlain` (for the preservation witness). -/
def wPlainSub : Span :=
  { text := "John", font := "f", size := 10,
    bbox := ⟨3, 0, 3 + (partUnits "John".toList : ℚ) * unitOf wPlain, 10⟩, page := 1 }

/-! ## Theorems -/

/-! ### State-threading lemmas for the label detector -/

theorem stepSpan_restSpans (st : ExtractorState) (sub : Span) :
    (stepSpan st sub).1.restSpans = st.restSpans := by
  unfold stepSpan
  cases findAlias (normText sub.text) st.mappingCopy <;> rfl

theorem stepSpan_extractedData (st : ExtractorState) (sub : Span) :
    (stepSpan st sub).1.extractedData = st.extractedData := by
  unfold stepSpan
  cases findAlias (normText sub.text) st.mappingCopy <;> rfl

theorem processSpans_restSpans (spans : List Span) :
    ∀ st hasLabel, (processSpans st hasLabel spans).1.restSpans = st.restSpans := by
  induction spans with
  | nil => intro st h; rfl
  | cons sub rest ih =>
    intro st h
    simp only [processSpans]
    rw [ih, stepSpan_restSpans]

theorem processSpans_extractedData (spans : List Span) :
    ∀ st hasLabel, (processSpans st hasLabel spans).1.extractedData = st.extractedData := by
  induction spans with
  | nil => intro st h; rfl
  | cons sub rest ih =>
    intro st h
    simp only [processSpans]
    rw [ih, stepSpan_extractedData]

theorem processBlock_restSpans (st : ExtractorState) (block : List Span) :
    (processBlock st block).restSpans =
      if blockFlag st block then st.restSpans else st.restSpans ++ block := by
  unfold processBlock blockFlag
  by_cases h : (processSpans st false block).2 <;>
    simp [h, processSpans_restSpans]

theorem processBlock_extractedData (st : ExtractorState) (block : List Span) :
    (processBlock st block).extractedData = st.extractedData := by
  unfold processBlock
  by_cases h : (processSpans st false block).2 <;>
    simp [h, processSpans_extractedData]

theorem findLabels_cons (st : ExtractorState) (b : List Span) (bs : List (List Span)) :
    findLabels st (b :: bs) = findLabels (processBlock st b) bs := rfl

theorem findLabels_extractedData (blocks : List (List Span)) :
    ∀ st, (findLabels st blocks).extractedData = st.extractedData := by
  induction blocks with
  | nil => intro st; rfl
  | cons b bs ih =>
    intro st
    rw [findLabels_cons, ih, processBlock_extractedData]

theorem unmatchedBlocks_cons (st : ExtractorState) (b : List Span) (bs : List (List Span)) :
    unmatchedBlocks st (b :: bs) =
      if blockFlag st b then unmatchedBlocks (processBlock st b) bs
      else b :: unmatchedBlocks (processBlock st b) bs := rfl

/-- C2: if any span within a block is matched as a label, no span of
that block enters the rest-span candidate pool; if a block produced no
label, every span of that block enters the pool: the final pool is
exactly the concatenation, in order, of the blocks whose processing
matched no label. -/
theorem claim_C2_block_exclusion (blocks : List (List Span)) :
    ∀ st : ExtractorState,
      (findLabels st blocks).restSpans = st.restSpans ++ (unmatchedBlocks st blocks).flatten := by
  induction blocks with
  | nil => intro st; simp [findLabels, unmatchedBlocks]
  | cons b bs ih =>
    intro st
    rw [findLabels_cons, ih, processBlock_restSpans, unmatchedBlocks_cons]
    by_cases h : blockFlag st b
    · simp [h]
    · simp [h, List.append_assoc]

/-! ### Uniqueness of label keys and completeness of result keys -/

theorem findAlias_exists :
    ∀ (m : AliasTable) (norm : List Char) (k : String),
      findAlias norm m = some k → ∃ al, (k, al) ∈ m := by
  intro m
  induction m with
  | nil => intro norm k h; simp [findAlias] at h
  | cons kv rest ih =>
    obtain ⟨k0, als⟩ := kv
    intro norm k h
    simp only [findAlias] at h
    by_cases hm : als.any fun a => aliasLower a == norm
    · rw [if_pos hm] at h
      obtain rfl : k0 = k := by injection h
      exact ⟨als, List.mem_cons_self _ _⟩
    · rw [if_neg hm] at h
      obtain ⟨al, hal⟩ := ih norm k h
      exact ⟨al, List.mem_cons_of_mem _ hal⟩

theorem stepSpan_detectorInv (st : ExtractorState) (sub : Span)
    (h : detectorInv st) : detectorInv (stepSpan st sub).1 := by
  unfold stepSpan
  cases hf : findAlias (normText sub.text) st.mappingCopy with
  | none => exact h
  | some k =>
    obtain ⟨hnd, hdisj⟩ := h
    constructor
    · rw [List.map_append, List.nodup_append]
      refine ⟨hnd, List.nodup_singleton _, ?_⟩
      intro a ha hb
      simp only [List.map_cons, List.map_nil, List.mem_singleton] at hb
      obtain ⟨l, hl, hla⟩ := List.mem_map.mp ha
      obtain ⟨al, hmem⟩ := findAlias_exists _ _ _ hf
      exact hdisj l hl (k, al) hmem (by rw [hla, hb])
    · intro l hl kv hkv
      have hkv2 := List.mem_filter.mp hkv
      have hne : kv.1 ≠ k := by
        have := hkv2.2
        simpa using this
      rcases List.mem_append.mp hl with hl1 | hl2
      · exact hdisj l hl1 kv hkv2.1
      · simp only [List.mem_singleton] at hl2
        subst hl2
        simpa using hne

theorem processSpans_detectorInv (spans : List Span) :
    ∀ st hasLabel, detectorInv st → detectorInv (processSpans st hasLabel spans).1 := by
  induction spans with
  | nil => intro st h hi; exact hi
  | cons sub rest ih =>
    intro st h hi
    simp only [processSpans]
    exact ih _ _ (stepSpan_detectorInv st sub hi)

theorem processBlock_detectorInv (st : ExtractorState) (block : List Span)
    (h : detectorInv st) : detectorInv (processBlock st block) := by
  unfold processBlock
  have h1 := processSpans_detectorInv block st false h
  by_cases hb : (processSpans st false block).2 <;> simp [hb]
  · exact h1
  · exact h1

theorem findLabels_detectorInv (blocks : List (List Span)) :
    ∀ st, detectorInv st → detectorInv (findLabels st blocks) := by
  induction blocks with
  | nil => intro st h; exact h
  | cons b bs ih =>
    intro st h
    rw [findLabels_cons]
    exact ih _ (processBlock_detectorInv st b h)

/-- C3: the Label Detector never produces two label spans tagged with
the same field key — once a key is matched it is removed from the
working mapping, so its key cannot match again. -/
theorem claim_C3_at_most_one_label (m : AliasTable) (blocks : List (List Span)) :
    ((findLabels (initState m) blocks).labels.map Span.labelFor).Nodup :=
  (findLabels_detectorInv blocks (initState m)
    ⟨List.nodup_nil, by intro l hl; simp [initState] at hl⟩).1

theorem stepSpan_keyInv (K : List String) (st : ExtractorState) (sub : Span)
    (h : keyInv K st) : keyInv K (stepSpan st sub).1 := by
  unfold stepSpan
  cases hf : findAlias (normText sub.text) st.mappingCopy with
  | none => exact h
  | some k =>
    obtain ⟨hmap, hlab⟩ := h
    constructor
    · intro kv hkv
      exact hmap kv (List.mem_filter.mp hkv).1
    · intro l hl
      rcases List.mem_append.mp hl with hl1 | hl2
      · exact hlab l hl1
      · simp only [List.mem_singleton] at hl2
        subst hl2
        obtain ⟨al, hmem⟩ := findAlias_exists _ _ _ hf
        exact hmap (k, al) hmem

theorem processSpans_keyInv (K : List String) (spans : List Span) :
    ∀ st hasLabel, keyInv K st → keyInv K (processSpans st hasLabel spans).1 := by
  induction spans with
  | nil => intro st h hi; exact hi
  | cons sub rest ih =>
    intro st h hi
    simp only [processSpans]
    exact ih _ _ (stepSpan_keyInv K st sub hi)

theorem processBlock_keyInv (K : List String) (st : ExtractorState) (block : List Span)
    (h : keyInv K st) : keyInv K (processBlock st block) := by
  unfold processBlock
  have h1 := processSpans_keyInv K block st false h
  by_cases hb : (processSpans st false block).2 <;> simp [hb]
  · exact h1
  · exact h1

theorem findLabels_keyInv (K : List String) (blocks : List (List Span)) :
    ∀ st, keyInv K st → keyInv K (findLabels st blocks) := by
  induction blocks with
  | nil => intro st h; exact h
  | cons b bs ih =>
    intro st h
    rw [findLabels_cons]
    exact ih _ (processBlock_keyInv K st b h)

theorem dictInsert_keys (d : List (String × Option String)) (k : String) (v : Option String)
    (h : k ∈ d.map Prod.fst) : (dictInsert d k v).map Prod.fst = d.map Prod.fst := by
  obtain ⟨kv, hkv, hk⟩ := List.mem_map.mp h
  have hany : (d.any fun x => x.1 == k) = true := by
    rw [List.any_eq_true]
    exact ⟨kv, hkv, by simp [hk]⟩
  unfold dictInsert
  rw [if_pos hany, List.map_map]
  apply List.map_congr_left
  intro a _
  by_cases ha : a.1 = k <;> simp [ha]

theorem findNearestValue_labels (st : ExtractorState) (label : Span) :
    (findNearestValue st label).labels = st.labels := by
  unfold findNearestValue
  cases firstMinBy (distSq label) (candidatesFor label st.restSpans) with
  | none => rfl
  | some c => by_cases h : label.labelFor ≠ "" <;> simp [h]

theorem findNearestValue_keys (st : ExtractorState) (label : Span)
    (h : label.labelFor ∈ st.extractedData.map Prod.fst) :
    (findNearestValue st label).extractedData.map Prod.fst
      = st.extractedData.map Prod.fst := by
  unfold findNearestValue
  cases firstMinBy (distSq label) (candidatesFor label st.restSpans) with
  | none => rfl
  | some c =>
    by_cases hk : label.labelFor ≠ "" <;> simp [hk]
    exact dictInsert_keys _ _ _ h

theorem resolveFold_keys (K : List String) (labs : List Span) :
    ∀ st : ExtractorState, (∀ l ∈ labs, l.labelFor ∈ K) →
      st.extractedData.map Prod.fst = K →
      ((labs.foldl findNearestValue st).extractedData).map Prod.fst = K := by
  induction labs with
  | nil => intro st hmem hK; exact hK
  | cons l rest ih =>
    intro st hmem hK
    simp only [List.foldl_cons]
    apply ih
    · intro x hx; exact hmem x (List.mem_cons_of_mem _ hx)
    · rw [findNearestValue_keys]
      · exact hK
      · rw [hK]; exact hmem l (List.mem_cons_self _ _)

/-- C4: the mapping returned by a full extraction run has exactly the
configured key set, in configuration order, no matter how many labels
were found; every configured key starts out absent. -/
theorem claim_C4_complete_keys (m : AliasTable) (blocks : List (List Span)) :
    (runExtract m blocks).map Prod.fst = m.map Prod.fst ∧
      (initState m).extractedData = m.map fun kv => (kv.1, none) := by
  refine ⟨?_, rfl⟩
  unfold runExtract runFrom
  have hkeys : (findLabels (initState m) (collectSpans blocks)).extractedData.map Prod.fst
      = m.map Prod.fst := by
    rw [findLabels_extractedData]
    simp [initState, List.map_map, Function.comp]
  have hinv : keyInv (m.map Prod.fst) (findLabels (initState m) (collectSpans blocks)) := by
    apply findLabels_keyInv
    constructor
    · intro kv hkv
      exact List.mem_map.mpr ⟨kv, hkv, rfl⟩
    · intro l hl; simp [initState] at hl
  exact resolveFold_keys _ _ _ (fun l hl => hinv.2 l hl) hkeys

/-! ### Purity and error handling of the pipeline -/

/-- C8: extraction is a deterministic function of the span collection
and the alias table; a run starts from fresh working structures (its
own alias-table copy, empty label list, empty rest-span list), so no
state carries over between runs. -/
theorem claim_C8_pure (m : AliasTable) (blocks : List (List Span))
    (s1 s2 : ExtractorState) (h1 : s1 = initState m) (h2 : s2 = initState m) :
    runFrom s1 blocks = runFrom s2 blocks ∧
      s1.mappingCopy = m ∧ s1.labels = [] ∧ s1.restSpans = [] ∧
      runFrom s1 blocks = runExtract m blocks := by
  subst h1; subst h2
  exact ⟨rfl, rfl, rfl, rfl, rfl⟩

/-- C8 witness at a concrete alias table and document. -/
theorem claim_C8_pure_witness :
    runFrom (initState wMapping) wBlocks = runFrom (initState wMapping) wBlocks ∧
      (initState wMapping).mappingCopy = wMapping ∧
      (initState wMapping).labels = [] ∧ (initState wMapping).restSpans = [] ∧
      runFrom (initState wMapping) wBlocks = runExtract wMapping wBlocks :=
  claim_C8_pure wMapping wBlocks (initState wMapping) (initState wMapping) rfl rfl

/-- C9: a failure of the pipeline is caught by `extract` and yields the
mapping with every configured key set to absent, which is equal in
shape to a clean run over an empty document that matched nothing. -/
theorem claim_C9_catch_all (m : AliasTable) :
    extractSafe m (Except.error ()) = m.map (fun kv => (kv.1, none)) ∧
      extractSafe m (Except.error ()) = extractSafe m (Except.ok []) :=
  ⟨rfl, rfl⟩

/-! ### Geometry of the span segmenter -/

theorem splitGo_mem (font : String) (size y0 y1 : ℚ) (page : ℕ) (unit : ℚ)
    (parts : List (List Char × Bool)) :
    ∀ cursor : ℚ, ∀ sub ∈ splitGo font size y0 y1 page unit parts cursor,
      sub.font = font ∧ sub.size = size ∧ sub.page = page ∧
        sub.bbox.y0 = y0 ∧ sub.bbox.y1 = y1 ∧
        sub.bbox.x1 = sub.bbox.x0 + (partUnits sub.text.toList : ℚ) * unit := by
  induction parts with
  | nil => intro cursor sub h; simp [splitGo] at h
  | cons pt rest ih =>
    obtain ⟨p, isSep⟩ := pt
    intro cursor sub h
    simp only [splitGo] at h
    by_cases hs : isSep
    · rw [if_pos hs] at h
      exact ih _ sub h
    · rw [if_neg hs] at h
      rcases List.mem_cons.mp h with h1 | h2
      · subst h1
        refine ⟨rfl, rfl, rfl, rfl, rfl, ?_⟩
        simp
      · exact ih _ sub h2

theorem splitGo_length (font : String) (size y0 y1 : ℚ) (page : ℕ) (unit : ℚ)
    (parts : List (List Char × Bool)) :
    ∀ cursor : ℚ, (splitGo font size y0 y1 page unit parts cursor).length
      = (parts.filter fun pt => !pt.2).length := by
  induction parts with
  | nil => intro cursor; rfl
  | cons pt rest ih =>
    obtain ⟨p, isSep⟩ := pt
    intro cursor
    simp only [splitGo]
    by_cases hs : isSep
    · rw [if_pos hs]
      simp [hs, ih]
    · rw [if_neg hs]
      simp only [Bool.not_eq_true] at hs
      simp [hs, ih, List.filter_cons]

theorem splitGo_boxes (font : String) (size y0 y1 : ℚ) (page : ℕ) (unit : ℚ)
    (parts : List (List Char × Bool)) :
    ∀ cursor : ℚ,
      ((splitGo font size y0 y1 page unit parts cursor).map fun sub =>
          (sub.bbox.x0, sub.bbox.x1))
        = (partIntervals cursor unit parts).filterMap
            (fun t => if t.2.2 then none else some (t.1, t.2.1)) := by
  induction parts with
  | nil => intro cursor; rfl
  | cons pt rest ih =>
    obtain ⟨p, isSep⟩ := pt
    intro cursor
    simp only [splitGo, partIntervals]
    by_cases hs : isSep
    · rw [if_pos hs]
      simp [hs, ih]
    · rw [if_neg hs]
      simp only [Bool.not_eq_true] at hs
      simp [hs, ih]

theorem partIntervals_chain (unit : ℚ) (parts : List (List Char × Bool)) :
    ∀ cursor : ℚ,
      List.Chain' (fun a b => b.1 = a.2.1) (partIntervals cursor unit parts) := by
  induction parts with
  | nil => intro cursor; exact List.chain'_nil
  | cons pt rest ih =>
    obtain ⟨p, isSep⟩ := pt
    intro cursor
    simp only [partIntervals]
    rw [List.chain'_cons']
    refine ⟨?_, ih _⟩
    intro b hb
    cases rest with
    | nil => simp [partIntervals] at hb
    | cons q qs =>
      obtain ⟨q1, q2⟩ := q
      simp only [partIntervals, List.head?_cons, Option.mem_def, Option.some.injEq] at hb
      subst hb
      rfl

theorem partIntervals_head (cursor unit : ℚ) (parts : List (List Char × Bool)) :
    ∀ t, (partIntervals cursor unit parts).head? = some t → t.1 = cursor := by
  intro t h
  cases parts with
  | nil => simp [partIntervals] at h
  | cons pt rest =>
    obtain ⟨p, isSep⟩ := pt
    simp only [partIntervals, List.head?_cons, Option.some.injEq] at h
    subst h
    rfl

theorem partIntervals_getLast (unit : ℚ) (parts : List (List Char × Bool)) :
    ∀ cursor : ℚ, ∀ t, (partIntervals cursor unit parts).getLast? = some t →
      t.2.1 = cursor + ((parts.map fun pt => (partUnits pt.1 : ℚ) * unit).sum) := by
  induction parts with
  | nil => intro cursor t h; simp [partIntervals] at h
  | cons pt rest ih =>
    obtain ⟨p, isSep⟩ := pt
    intro cursor t h
    cases rest with
    | nil =>
      simp only [partIntervals, List.getLast?_singleton, Option.some.injEq] at h
      subst h
      simp
    | cons q qs =>
      obtain ⟨q1, q2⟩ := q
      simp only [partIntervals] at h ⊢
      rw [List.getLast?_cons_cons] at h
      have := ih (cursor + (partUnits p : ℚ) * unit) t (by simpa [partIntervals] using h)
      rw [this]
      simp [add_assoc]

theorem widths_sum (unit : ℚ) (parts : List (List Char × Bool)) :
    ((parts.map fun pt => (partUnits pt.1 : ℚ) * unit).sum)
      = ((parts.map fun pt => partUnits pt.1).sum : ℕ) * unit := by
  induction parts with
  | nil => simp
  | cons pt rest ih =>
    simp [ih, add_mul]

theorem unitOf_spec (s : Span) (h : totalUnitsOf s.text ≠ 0) :
    (totalUnitsOf s.text : ℚ) * unitOf s = s.bbox.x1 - s.bbox.x0 := by
  unfold unitOf
  rw [if_neg h]
  have hq : (totalUnitsOf s.text : ℚ) ≠ 0 := Nat.cast_ne_zero.mpr h
  field_simp

/-- C5: with non-zero total unit weight, the sub-boxes emitted by the
segmenter, together with the widths consumed by dropped filler parts,
tile the original bbox's x-extent left to right without gaps or
overlaps: every part's width is its unit weight times the per-unit
width, the widths sum exactly to the original width, consecutive
intervals abut at the advancing cursor, and the scan starts at `x0`
and ends at `x1`. -/
theorem claim_C5_tiling (s : Span) (h : totalUnitsOf s.text ≠ 0) : tilingSpec s := by
  have hsum : ((splitParts s.text).map fun pt => (partUnits pt.1 : ℚ) * unitOf s).sum
      = s.bbox.x1 - s.bbox.x0 := by
    rw [widths_sum]
    exact unitOf_spec s h
  refine ⟨?_, hsum, ?_, ?_, ?_, ?_⟩
  · intro sub hsub
    have := (splitGo_mem s.font s.size s.bbox.y0 s.bbox.y1 s.page (unitOf s)
      (splitParts s.text) s.bbox.x0 sub hsub).2.2.2.2.2
    rw [this]
    ring
  · exact splitGo_boxes _ _ _ _ _ _ _ _
  · exact partIntervals_chain _ _ _
  · exact partIntervals_head _ _ _
  · intro t ht
    rw [partIntervals_getLast (unitOf s) (splitParts s.text) s.bbox.x0 t ht, hsum]
    ring

/-- C5 witness at a concrete filler-form span. -/
theorem claim_C5_tiling_witness :
    totalUnitsOf wFiller.text ≠ 0 ∧ tilingSpec wFiller :=
  ⟨by decide, claim_C5_tiling wFiller (by decide)⟩

/-- C7 counterexample: the degenerate zero-width span `wDegenerate`
(text `ab`, bbox `(5,0,5,10)`) is not skipped by the segmenter — it
does contribute output sub-spans. -/
theorem claim_C7_not_skipped : splitSpan wDegenerate ≠ [] := by decide

theorem splitGo_zero_unit (font : String) (size y0 y1 : ℚ) (page : ℕ)
    (parts : List (List Char × Bool)) :
    ∀ cursor : ℚ, ∀ sub ∈ splitGo font size y0 y1 page 0 parts cursor,
      sub.bbox.x0 = cursor ∧ sub.bbox.x1 = cursor := by
  induction parts with
  | nil => intro cursor sub h; simp [splitGo] at h
  | cons pt rest ih =>
    obtain ⟨p, isSep⟩ := pt
    intro cursor sub h
    simp only [splitGo, mul_zero, add_zero] at h
    by_cases hs : isSep
    · rw [if_pos hs] at h
      exact ih _ sub h
    · rw [if_neg hs] at h
      rcases List.mem_cons.mp h with h1 | h2
      · subst h1
        exact ⟨rfl, by simp⟩
      · exact ih _ sub h2

theorem unitOf_degenerate (s : Span) (h : s.bbox.x1 = s.bbox.x0) : unitOf s = 0 := by
  unfold unitOf
  rw [h, sub_self, zero_div, ite_self]

/-- C7 amended: a span with a degenerate zero-width bounding box and
non-zero total weighted content is not skipped: the segmenter emits
one sub-span per non-filler part, every emitted sub-span inheriting
the degenerate x-extent (all allocated widths are zero), and
extraction continues with these sub-spans. -/
theorem claim_C7_degenerate (s : Span) (h1 : s.bbox.x1 = s.bbox.x0)
    (_h2 : totalUnitsOf s.text ≠ 0) :
    (splitSpan s).length = ((splitParts s.text).filter fun pt => !pt.2).length ∧
      ∀ sub ∈ splitSpan s, sub.bbox.x0 = s.bbox.x0 ∧ sub.bbox.x1 = s.bbox.x0 := by
  constructor
  · exact splitGo_length _ _ _ _ _ _ _ _
  · intro sub hsub
    unfold splitSpan at hsub
    rw [unitOf_degenerate s h1] at hsub
    exact splitGo_zero_unit _ _ _ _ _ _ _ sub hsub

/-- C7 amended-claim witness at the concrete degenerate span. -/
theorem claim_C7_degenerate_witness :
    wDegenerate.bbox.x1 = wDegenerate.bbox.x0 ∧ totalUnitsOf wDegenerate.text ≠ 0 ∧
      ((splitSpan wDegenerate).length
          = ((splitParts wDegenerate.text).filter fun pt => !pt.2).length ∧
        ∀ sub ∈ splitSpan wDegenerate,
          sub.bbox.x0 = wDegenerate.bbox.x0 ∧ sub.bbox.x1 = wDegenerate.bbox.x0) :=
  ⟨by decide, by decide, claim_C7_degenerate wDegenerate (by decide) (by decide)⟩

/-- C10: every sub-span the segmenter emits preserves the input span's
font, size, page and vertical extent (`y0`, `y1`) unchanged; only text
and horizontal coordinates are recomputed. -/
theorem claim_C10_frame (s : Span) (sub : Span) (h : sub ∈ splitSpan s) :
    sub.font = s.font ∧ sub.size = s.size ∧ sub.page = s.page ∧
      sub.bbox.y0 = s.bbox.y0 ∧ sub.bbox.y1 = s.bbox.y1 := by
  have := splitGo_mem s.font s.size s.bbox.y0 s.bbox.y1 s.page (unitOf s)
    (splitParts s.text) s.bbox.x0 sub h
  exact ⟨this.1, this.2.1, this.2.2.1, this.2.2.2.1, this.2.2.2.2.1⟩

/-! ### Spans without filler runs are returned unchanged -/

theorem scanAux_ne_nil (rest : List Char) :
    ∀ first others, scanAux first others rest ≠ [] := by
  induction rest with
  | nil => intro first others; simp [scanAux]
  | cons d rest ih =>
    intro first others
    simp only [scanAux]
    by_cases hc : continuesRun first d
    · rw [if_pos hc]; exact ih _ _
    · rw [if_neg hc]; simp

theorem scanAux_flatten (rest : List Char) :
    ∀ first others,
      ((scanAux first others rest).map Prod.fst).flatten = first :: (others ++ rest) := by
  induction rest with
  | nil => intro first others; simp [scanAux, runToken]
  | cons d rest ih =>
    intro first others
    simp only [scanAux]
    by_cases hc : continuesRun first d
    · rw [if_pos hc, ih]
      simp
    · rw [if_neg hc]
      simp [runToken, ih]

theorem hasRunOf3_tail (a : Char) (l : List Char)
    (h : hasRunOf3 (a :: l) = false) : hasRunOf3 l = false := by
  cases l with
  | nil => rfl
  | cons b t =>
    cases t with
    | nil => rfl
    | cons c r =>
      simp only [hasRunOf3, Bool.or_eq_false_iff] at h
      exact h.2

theorem hasRunOf3_suffix (l : List Char) :
    ∀ m, hasRunOf3 (l ++ m) = false → hasRunOf3 m = false := by
  induction l with
  | nil => intro m h; exact h
  | cons a l ih =>
    intro m h
    exact ih m (hasRunOf3_tail a (l ++ m) h)

theorem run3_true (first : Char) (others rest : List Char)
    (hf : isFillerChar first = true) (hh : others.all (· == first) = true)
    (hl : 2 ≤ others.length) : hasRunOf3 (first :: (others ++ rest)) = true := by
  cases others with
  | nil => simp at hl
  | cons x t =>
    cases t with
    | nil => simp at hl
    | cons y t2 =>
      simp only [List.all_cons, Bool.and_eq_true, beq_iff_eq] at hh
      obtain ⟨hx, hy, _⟩ := hh
      subst hx; subst hy
      simp [hasRunOf3, hf]

theorem runToken_tag_false (first : Char) (others rest2 : List Char)
    (hh : isFillerChar first = true → others.all (· == first) = true)
    (hr : hasRunOf3 (first :: (others ++ rest2)) = false) :
    (runToken first others).2 = false := by
  by_cases hf : isFillerChar first
  · by_cases h3 : 3 ≤ (first :: others).length
    · exfalso
      have hlen : 2 ≤ others.length := by
        simp only [List.length_cons] at h3
        omega
      have := run3_true first others rest2 hf (hh hf) hlen
      rw [this] at hr
      simp at hr
    · simp only [List.length_cons] at h3
      simp [runToken, hf, h3]
  · simp only [Bool.not_eq_true] at hf
    simp [runToken, hf]

theorem scanAux_tags_false (rest : List Char) :
    ∀ first others,
      (isFillerChar first = true → others.all (· == first) = true) →
      hasRunOf3 (first :: (others ++ rest)) = false →
      ∀ t ∈ scanAux first others rest, t.2 = false := by
  induction rest with
  | nil =>
    intro first others hh hr t ht
    simp only [scanAux, List.mem_singleton] at ht
    subst ht
    exact runToken_tag_false first others [] hh hr
  | cons d rest ih =>
    intro first others hh hr t ht
    simp only [scanAux] at ht
    by_cases hc : continuesRun first d
    · rw [if_pos hc] at ht
      refine ih first (others ++ [d]) ?_ ?_ t ht
      · intro hf
        have hd : (first == d) = true := by
          unfold continuesRun at hc
          rwa [if_pos hf] at hc
        simp only [List.all_append, Bool.and_eq_true]
        exact ⟨hh hf, by simp [List.all_cons, (beq_iff_eq.mp hd).symm]⟩
      · have : others ++ [d] ++ rest = others ++ d :: rest := by simp
        rw [this]
        exact hr
    · rw [if_neg hc] at ht
      rcases List.mem_cons.mp ht with h1 | h2
      · subst h1
        exact runToken_tag_false first others (d :: rest) hh hr
      · refine ih d [] (by intro _; rfl) ?_ t h2
        have : first :: (others ++ d :: rest) = (first :: others) ++ (d :: rest) := by simp
        rw [this] at hr
        exact hasRunOf3_suffix (first :: others) (d :: rest) hr

theorem coalesce_all_false (ts : List (List Char × Bool))
    (h : ∀ t ∈ ts, t.2 = false) (hne : ts ≠ []) :
    coalesce ts = [((ts.map Prod.fst).flatten, false)] := by
  induction ts with
  | nil => exact absurd rfl hne
  | cons t rest ih =>
    obtain ⟨p, tag⟩ := t
    have htag : tag = false := h (p, tag) (List.mem_cons_self _ _)
    subst htag
    cases rest with
    | nil => simp [coalesce]
    | cons r rs =>
      have hrest := ih (fun x hx => h x (List.mem_cons_of_mem _ hx)) (by simp)
      simp only [coalesce]
      rw [show coalesce (r :: rs) = [(((r :: rs).map Prod.fst).flatten, false)] from hrest]
      simp

theorem partUnits_ne_zero (l : List Char) (h : l ≠ []) : partUnits l ≠ 0 := by
  cases l with
  | nil => exact absurd rfl h
  | cons c t =>
    simp only [partUnits, List.map_cons, List.sum_cons]
    have hc : 1 ≤ char_length c := by
      unfold char_length
      split <;> omega
    omega

theorem splitParts_no_run (l : List Char) (hne : l ≠ [])
    (hr : hasRunOf3 l = false) : coalesce (rawTokens l) = [(l, false)] := by
  cases l with
  | nil => exact absurd rfl hne
  | cons c cs =>
    have htags := scanAux_tags_false cs c [] (fun _ => rfl) (by simpa using hr)
    have hnn := scanAux_ne_nil cs c []
    rw [show rawTokens (c :: cs) = scanAux c [] cs from rfl,
      coalesce_all_false _ htags hnn, scanAux_flatten]
    simp

/-- C6: a non-empty span whose text has no run of three or more
consecutive dots or underscores is returned by the segmenter as
exactly one span with the same text and the same bounding box. -/
theorem claim_C6_no_filler (s : Span) (h1 : s.text ≠ "")
    (h2 : hasRunOf3 s.text.toList = false) :
    splitSpan s =
      [{ text := s.text, font := s.font, size := s.size,
         bbox := s.bbox, page := s.page }] := by
  obtain ⟨tx, fo, sz, ⟨x0, y0, x1, y1⟩, pg, lf⟩ := s
  simp only at h1 h2 ⊢
  have hl : tx.toList ≠ [] := by
    intro hnil
    apply h1
    show String.mk tx.toList = String.mk []
    rw [hnil]
  have hparts : splitParts tx = [(tx.toList, false)] := splitParts_no_run tx.toList hl h2
  have hu : partUnits tx.toList ≠ 0 := partUnits_ne_zero _ hl
  have hU : totalUnitsOf tx = partUnits tx.toList := by
    unfold totalUnitsOf
    rw [hparts]
    simp
  have hx : x0 + (partUnits tx.toList : ℚ) *
      unitOf { text := tx, font := fo, size := sz, bbox := ⟨x0, y0, x1, y1⟩,
               page := pg, labelFor := lf } = x1 := by
    have hq : (partUnits tx.toList : ℚ) ≠ 0 := Nat.cast_ne_zero.mpr hu
    unfold unitOf
    rw [hU, if_neg hu]
    show x0 + (partUnits tx.toList : ℚ) * ((x1 - x0) / (partUnits tx.toList : ℚ)) = x1
    rw [← mul_div_assoc, mul_div_cancel_left₀ _ hq]
    ring
  unfold splitSpan
  simp only [hparts, splitGo]
  simp only [Bool.false_eq_true, if_false]
  refine List.cons_eq_cons.mpr ⟨?_, rfl⟩
  rw [Span.mk.injEq]
  refine ⟨rfl, rfl, rfl, ?_, rfl, rfl⟩
  rw [Bbox.mk.injEq]
  exact ⟨rfl, rfl, hx, rfl⟩

/-- C6 witness at a concrete filler-free span. -/
theorem claim_C6_no_filler_witness :
    wPlain.text ≠ "" ∧ hasRunOf3 wPlain.text.toList = false ∧
      splitSpan wPlain =
        [{ text := wPlain.text, font := wPlain.font, size := wPlain.size,
           bbox := wPlain.bbox, page := wPlain.page }] :=
  ⟨by decide, by decide, claim_C6_no_filler wPlain (by decide) (by decide)⟩

/-- C10 witness: a concrete sub-span of a concrete span. -/
theorem claim_C10_frame_witness :
    wPlainSub ∈ splitSpan wPlain ∧
      (wPlainSub.font = wPlain.font ∧ wPlainSub.size = wPlain.size ∧
        wPlainSub.page = wPlain.page ∧ wPlainSub.bbox.y0 = wPlain.bbox.y0 ∧
        wPlainSub.bbox.y1 = wPlain.bbox.y1) :=
  ⟨List.Mem.head _, claim_C10_frame wPlain wPlainSub (List.Mem.head _)⟩

/-! ### The value resolver -/

theorem qualifies_iff (label s : Span) :
    qualifies label s = true ↔
      s.page = label.page ∧ s.font ≠ label.font ∧
      (label.bbox.y0 + label.bbox.y1) / 2 - 3 / 5 * (label.bbox.y1 - label.bbox.y0)
          ≤ (s.bbox.y0 + s.bbox.y1) / 2 ∧
      (s.bbox.y0 + s.bbox.y1) / 2
          ≤ (label.bbox.y0 + label.bbox.y1) / 2 + 3 / 5 * (label.bbox.y1 - label.bbox.y0) := by
  unfold qualifies
  simp only [Bool.and_eq_true, decide_eq_true_eq, beq_iff_eq, ne_eq]
  tauto

theorem firstMinBy_none (f : Span → ℚ) :
    ∀ l : List Span, firstMinBy f l = none → l = [] := by
  intro l h
  cases l with
  | nil => rfl
  | cons a rest => simp [firstMinBy] at h

theorem firstMinBy_isSome (f : Span → ℚ) (l : List Span) (h : l ≠ []) :
    (firstMinBy f l).isSome = true := by
  cases hl : firstMinBy f l with
  | none => exact absurd (firstMinBy_none f l hl) h
  | some c => rfl

theorem firstMinBy_spec (f : Span → ℚ) :
    ∀ (l : List Span) (c : Span), firstMinBy f l = some c →
      c ∈ l ∧ (∀ b ∈ l, f c ≤ f b) ∧
      ∃ i : ℕ, ∃ hi : i < l.length, l.get ⟨i, hi⟩ = c ∧
        ∀ j : ℕ, ∀ hj : j < l.length, j < i → f c < f (l.get ⟨j, hj⟩) := by
  intro l
  induction l with
  | nil => intro c h; simp [firstMinBy] at h
  | cons a rest ih =>
    intro c h
    simp only [firstMinBy, Option.some.injEq] at h
    cases hr : firstMinBy f rest <;> rw [hr] at h
    · simp only [minKeep] at h
      subst h
      have hrest : rest = [] := firstMinBy_none f rest hr
      subst hrest
      refine ⟨List.mem_cons_self _ _, ?_, 0, by simp, rfl, ?_⟩
      · intro b hb
        rcases List.mem_cons.mp hb with h1 | h2
        · rw [h1]
        · simp at h2
      · intro j hj hj0
        omega
    · rename_i b
      obtain ⟨hbmem, hbmin, i, hi, hget, hfirst⟩ := ih b hr
      simp only [minKeep] at h
      by_cases hab : f a ≤ f b
      · rw [if_pos hab] at h
        subst h
        refine ⟨List.mem_cons_self _ _, ?_, 0, by simp, rfl, ?_⟩
        · intro x hx
          rcases List.mem_cons.mp hx with h1 | h2
          · rw [h1]
          · exact le_trans hab (hbmin x h2)
        · intro j hj hj0
          omega
      · rw [if_neg hab] at h
        subst h
        push_neg at hab
        refine ⟨List.mem_cons_of_mem _ hbmem, ?_, i + 1, by simpa using hi, ?_, ?_⟩
        · intro x hx
          rcases List.mem_cons.mp hx with h1 | h2
          · rw [h1]; exact le_of_lt hab
          · exact hbmin x h2
        · exact hget
        · intro j hj hj0
          cases j with
          | zero => exact hab
          | succ j2 =>
            have hj2 : j2 < rest.length := by simpa using hj
            exact hfirst j2 hj2 (by omega)

theorem dictGet_map_update (k : String) (v : Option String) :
    ∀ d : List (String × Option String), (d.any fun x => x.1 == k) = true →
      dictGet (d.map fun kv => if kv.1 == k then (kv.1, v) else kv) k = some v := by
  intro d
  induction d with
  | nil => intro h; simp at h
  | cons kv rest ih =>
    intro h
    by_cases hk : kv.1 = k
    · simp [dictGet, hk]
    · have hrest : (rest.any fun x => x.1 == k) = true := by
        simpa [hk] using h
      simpa [dictGet, hk] using ih hrest

theorem dictGet_append_single (k : String) (v : Option String) :
    ∀ d : List (String × Option String), (d.any fun x => x.1 == k) = false →
      dictGet (d ++ [(k, v)]) k = some v := by
  intro d
  induction d with
  | nil => intro h; simp [dictGet]
  | cons kv rest ih =>
    intro h
    simp only [List.any_cons, Bool.or_eq_false_iff] at h
    have hk : ¬ kv.1 = k := by simpa using h.1
    simpa [dictGet, hk] using ih h.2

theorem dictGet_dictInsert (d : List (String × Option String)) (k : String)
    (v : Option String) : dictGet (dictInsert d k v) k = some v := by
  unfold dictInsert
  by_cases h : (d.any fun x => x.1 == k) = true
  · rw [if_pos h]
    exact dictGet_map_update k v d h
  · rw [if_neg h]
    exact dictGet_append_single k v d (Bool.eq_false_iff.mpr h)

theorem distSq_nonneg (label s : Span) : 0 ≤ distSq label s :=
  add_nonneg (sq_nonneg _) (sq_nonneg _)

theorem euclidDist_le_euclidDist (label a b : Span) (h : distSq label a ≤ distSq label b) :
    euclidDist label a ≤ euclidDist label b :=
  Real.sqrt_le_sqrt (by exact_mod_cast h)

theorem euclidDist_lt_euclidDist (label a b : Span) (h : distSq label a < distSq label b) :
    euclidDist label a < euclidDist label b :=
  Real.sqrt_lt_sqrt (by exact_mod_cast distSq_nonneg label a) (by exact_mod_cast h)

theorem findNearestValue_of_none (st : ExtractorState) (label : Span)
    (h : firstMinBy (distSq label) (candidatesFor label st.restSpans) = none) :
    findNearestValue st label = st := by
  simp [findNearestValue, h]

theorem findNearestValue_of_some (st : ExtractorState) (label : Span) (c : Span)
    (h : firstMinBy (distSq label) (candidatesFor label st.restSpans) = some c)
    (hk : label.labelFor ≠ "") :
    findNearestValue st label =
      { st with extractedData := dictInsert st.extractedData label.labelFor c.text } := by
  simp [findNearestValue, h, hk]

/-- C1: the resolver's candidate filter accepts exactly the same-page,
different-font rest spans whose vertical bbox centre lies in the
`± 0.6 × label height` band; with no candidate the state is unchanged;
otherwise the label's key receives the text of the candidate at
minimal Euclidean distance between left-edge vertical midpoints, ties
broken by encounter order in the candidate pool. -/
theorem claim_C1_resolver (label : Span) (st : ExtractorState)
    (hk : label.labelFor ≠ "") : resolverSpec label st := by
  refine ⟨?_, ?_, ?_, ?_⟩
  · intro s
    unfold candidatesFor
    rw [List.mem_filter, qualifies_iff]
  · intro h
    apply findNearestValue_of_none
    rw [h]
    rfl
  · intro h
    exact firstMinBy_isSome _ _ h
  · intro c hc
    obtain ⟨hmem, hmin, i, hi, hget, hfirst⟩ := firstMinBy_spec (distSq label) _ c hc
    refine ⟨findNearestValue_of_some st label c hc hk, ?_, hmem, ?_, i, hi, hget, ?_⟩
    · rw [findNearestValue_of_some st label c hc hk]
      exact dictGet_dictInsert st.extractedData label.labelFor c.text
    · intro b hb
      exact euclidDist_le_euclidDist label c b (hmin b hb)
    · intro j hj hjlt
      exact euclidDist_lt_euclidDist label c _ (hfirst j hj hjlt)

/-- C1 witness at a concrete label, rest pool and state. -/
theorem claim_C1_resolver_witness :
    wLabel.labelFor ≠ "" ∧ resolverSpec wLabel wState :=
  ⟨by decide, claim_C1_resolver wLabel wState (by decide)⟩

end PdfExtractor
